import Mathlib

/-!
Verification of the sentiment aggregation and time-series analytics engine
of the public-opinion-scraper repository.

The Python sources are shallowly embedded as follows.

* Text is a `List Char`; Python `str.lower` is modelled by `pyLower`
  (the ASCII case fold, which is what every claim exercises).
* The regex substitutions of `TextPreprocessor._setup_patterns` /
  `TextPreprocessor.preprocess` are modelled by a generic leftmost,
  non-overlapping, greedy substitution driver `reSub` together with one
  matcher per pattern (`urlMatch?`, `mentionMatch?`, `hashtagMatch?`,
  `emojiMatch?`), each transcribing the character classes of the source
  pattern literally.
* Real-valued scores are rationals (`ℚ`): the claims under check are
  about branch structure, ordering and algebra, not about IEEE-754
  rounding.  Where the source computes a square root (Pearson r, standard
  deviations), the embedding carries the square instead
  (`trend_strength_sq`, `volatility_sq`), and every comparison against a
  square-rooted quantity is carried out on squares, which is equivalent
  because both sides are nonnegative.
* `pandas.DataFrame.sort_values('timestamp')` is modelled by
  `List.insertionSort` on the timestamp component.
-/

/-! ## Text normalizer (`TextPreprocessor` of sentiment_analyzer.py) -/

/-- Python `str.lower` restricted to its ASCII action: maps `A`..`Z`
(code points 65-90) to `a`..`z` and fixes every other character. -/
def pyLower (c : Char) : Char :=
  if h : 65 ≤ c.toNat ∧ c.toNat ≤ 90 then
    Char.ofNatAux (c.toNat + 32) (Or.inl (by omega))
  else c

/-- The `\w` character class of the mention/hashtag patterns (ASCII part):
letters, digits and underscore. -/
def wordChar (c : Char) : Bool :=
  c.isAlphanum || c = '_'

/-- The single-character alternatives of the URL pattern
`http[s]?://(?:[a-zA-Z]|[0-9]|[$-_@.&+]|[!*\(\),]|(?:%[0-9a-fA-F][0-9a-fA-F]))+`.
`[$-_@.&+]` is the code-point range 0x24-0x5F (which already contains `%`,
so the two-hex-digit escape alternative adds no further first characters). -/
def urlClassChar (c : Char) : Bool :=
  c.isAlpha || c.isDigit || (0x24 ≤ c.toNat && c.toNat ≤ 0x5F) ||
    c = '!' || c = '*' || c = '(' || c = ')' || c = ','

/-- The emoji character class of `_setup_patterns`, range by range. -/
def emojiChar (c : Char) : Bool :=
  let n := c.toNat
  (0x1F600 ≤ n && n ≤ 0x1F64F) ||
  (0x1F300 ≤ n && n ≤ 0x1F5FF) ||
  (0x1F680 ≤ n && n ≤ 0x1F6FF) ||
  (0x1F1E0 ≤ n && n ≤ 0x1F1FF) ||
  (0x2500 ≤ n && n ≤ 0x2BEF) ||
  (0x2702 ≤ n && n ≤ 0x27B0) ||
  (0x24C2 ≤ n && n ≤ 0x1F251) ||
  (0x1F926 ≤ n && n ≤ 0x1F937) ||
  (0x10000 ≤ n && n ≤ 0x10FFFF) ||
  (0x2640 ≤ n && n ≤ 0x2642) ||
  (0x2600 ≤ n && n ≤ 0x2B55) ||
  (n = 0x200D) || (n = 0x23CF) || (n = 0x23E9) || (n = 0x231A) ||
  (n = 0xFE0F) || (n = 0x3030)

/-- `re.sub(pattern, repl, text)` for the patterns used here: scan left to
right; at each position try the matcher, which returns how many characters
the (greedy) match consumes; replace a match by `repl` and resume after it.
The `skip` counter carries how many characters of a match found earlier
are still to be consumed, which keeps the recursion structural. -/
def reSub (m? : List Char → Option ℕ) (repl : List Char) :
    ℕ → List Char → List Char
  | _, [] => []
  | Nat.succ k, _ :: cs => reSub m? repl k cs
  | 0, c :: cs =>
    match m? (c :: cs) with
    | some n => repl ++ reSub m? repl (n - 1) cs
    | none => c :: reSub m? repl 0 cs

/-- Matcher for `http[s]?://CLASS+` at the head of the list. -/
def urlMatch? (l : List Char) : Option ℕ :=
  match l with
  | 'h' :: 't' :: 't' :: 'p' :: rest =>
    let (sLen, rest2) :=
      match rest with
      | 's' :: r => (1, r)
      | _ => (0, rest)
    match rest2 with
    | ':' :: '/' :: '/' :: rest3 =>
      let n := (rest3.takeWhile urlClassChar).length
      if n = 0 then none else some (7 + sLen + n)
    | _ => none
  | _ => none

/-- Matcher for `@\w+` at the head of the list. -/
def mentionMatch? (l : List Char) : Option ℕ :=
  match l with
  | '@' :: rest =>
    let n := (rest.takeWhile wordChar).length
    if n = 0 then none else some (n + 1)
  | _ => none

/-- Matcher for `#\w+` at the head of the list. -/
def hashtagMatch? (l : List Char) : Option ℕ :=
  match l with
  | '#' :: rest =>
    let n := (rest.takeWhile wordChar).length
    if n = 0 then none else some (n + 1)
  | _ => none

/-- Matcher for a maximal run of emoji-class characters. -/
def emojiMatch? (l : List Char) : Option ℕ :=
  let n := (l.takeWhile emojiChar).length
  if n = 0 then none else some n

def urlSub (l : List Char) : List Char := reSub urlMatch? [] 0 l

def mentionSub (l : List Char) : List Char := reSub mentionMatch? [] 0 l

def hashtagSub (l : List Char) : List Char := reSub hashtagMatch? [] 0 l

def emojiSub (l : List Char) : List Char :=
  reSub emojiMatch? " [EMOJI] ".data 0 l

/-- Prepend a character to the first chunk (used when the next character
continues the current word). -/
def wordsGlue (c : Char) : List (List Char) → List (List Char)
  | [] => [[c]]
  | w :: rest => (c :: w) :: rest

/-- Python `str.split()` (no separator): the maximal whitespace-free,
nonempty chunks of the text. -/
def words : List Char → List (List Char)
  | [] => []
  | [c] => if c.isWhitespace then [] else [[c]]
  | c :: c2 :: cs =>
    if c.isWhitespace then words (c2 :: cs)
    else if c2.isWhitespace then [c] :: words (c2 :: cs)
    else wordsGlue c (words (c2 :: cs))

/-- Python `' '.join(ws)`. -/
def unwords : List (List Char) → List Char
  | [] => []
  | [w] => w
  | w :: ws => w ++ ' ' :: unwords ws

/-- `' '.join(text.split())`: collapse whitespace runs and trim. -/
def normWs (l : List Char) : List Char := unwords (words l)

/-- The ellipsis marker appended on truncation. -/
def dots : List Char := ['.', '.', '.']

/-- `if len(text) > max_length: text = text[:max_length] + "..."`. -/
def truncateText (m : ℕ) (l : List Char) : List Char :=
  if m < l.length then l.take m ++ dots else l

/-- The `text_processing` configuration switches read by `preprocess`. -/
structure TextConfig where
  remove_urls : Bool
  remove_mentions : Bool
  remove_hashtags : Bool
  handle_emojis : Bool
  max_text_length : ℕ

/-- The four conditional substitution passes of `preprocess`, in source
order: URLs, mentions, hashtags, emojis. -/
def applySubs (cfg : TextConfig) (l : List Char) : List Char :=
  let a := if cfg.remove_urls then urlSub l else l
  let b := if cfg.remove_mentions then mentionSub a else a
  let c := if cfg.remove_hashtags then hashtagSub b else b
  if cfg.handle_emojis then emojiSub c else c

/-- `TextPreprocessor.preprocess`: empty guard, lowercase, the four
substitution passes, whitespace collapse, truncation. -/
def preprocess (cfg : TextConfig) (text : List Char) : List Char :=
  if text = [] then []
  else
    truncateText cfg.max_text_length
      (normWs (applySubs cfg (text.map pyLower)))

/-! ## Sentiment aggregator (`SentimentAnalyzer` of sentiment_analyzer.py) -/

/-- Python `text.split(sep)` for a one-character separator. -/
def splitOnChar (sep : Char) : List Char → List (List Char)
  | [] => [[]]
  | c :: cs =>
    match splitOnChar sep cs with
    | [] => [[c]]
    | h :: t => if c = sep then [] :: h :: t else (c :: h) :: t

/-- `result['model_name'].split('/')[-1].split('-')[0]`: the key under
which a model result's weight is looked up. -/
def extractKey (s : String) : String :=
  ⟨(splitOnChar '-' ((splitOnChar '/' s.data).getLastD [])).headD []⟩

/-- `weights.get(model_name, 1.0)` against the dict
`{'vader': vader_weight, 'roberta': roberta_weight}`. -/
def resolveWeight (vw rw : ℚ) (name : String) : ℚ :=
  if extractKey name = "vader" then vw
  else if extractKey name = "roberta" then rw
  else 1

/-- One per-model result as consumed by `get_weighted_sentiment`
(`model_version`, `processing_time` and `raw_output` are passed through
unread by the aggregator and are omitted). -/
structure ModelResult where
  model_name : String
  compound_score : ℚ
  positive_score : ℚ
  negative_score : ℚ
  neutral_score : ℚ
  confidence : ℚ
deriving DecidableEq, Repr

/-- `total_weight` accumulated by the loop of `get_weighted_sentiment`. -/
def totalWeight (vw rw : ℚ) (results : List ModelResult) : ℚ :=
  (results.map (fun r => resolveWeight vw rw r.model_name)).sum

/-- One weighted accumulator (`weighted_compound`, `weighted_positive`,
...) of the loop, for the field selected by `f`. -/
def weightedSum (vw rw : ℚ) (f : ModelResult → ℚ)
    (results : List ModelResult) : ℚ :=
  (results.map (fun r => f r * resolveWeight vw rw r.model_name)).sum

/-- `model_results[model_name] = result`: Python dict assignment keeps the
insertion position of an existing key and appends a new key at the end. -/
def dictInsert (d : List (String × ModelResult)) (k : String)
    (v : ModelResult) : List (String × ModelResult) :=
  if d.any (fun p => p.1 = k) then
    d.map (fun p => if p.1 = k then (k, v) else p)
  else d ++ [(k, v)]

/-- The `model_results` dict built by the loop, in iteration order. -/
def aggDict (results : List ModelResult) :
    List (String × ModelResult) :=
  results.foldl (fun d r => dictInsert d (extractKey r.model_name) r) []

/-- The aggregated record returned by `get_weighted_sentiment`
(the derived `sentiment_label`/`high_confidence` fields are attached later
by `analyze_batch` and are covered by `getSentimentLabel`). -/
structure AggregatedSentiment where
  compound_score : ℚ
  positive_score : ℚ
  negative_score : ℚ
  neutral_score : ℚ
  confidence : ℚ
  model_count : ℕ
  models_used : List String
  individual_results : List (String × ModelResult)
deriving DecidableEq, Repr

/-- `SentimentAnalyzer.get_weighted_sentiment`: `None` on empty input,
weight resolution per result, weighted accumulation, `None` on zero total
weight, else the weight-normalized record.  `vw`/`rw` are the configured
vader/roberta weights. -/
def getWeightedSentiment (vw rw : ℚ) (results : List ModelResult) :
    Option AggregatedSentiment :=
  if results.isEmpty then none
  else if totalWeight vw rw results = 0 then none
  else some
    { compound_score :=
        weightedSum vw rw (fun r => r.compound_score) results /
          totalWeight vw rw results
      positive_score :=
        weightedSum vw rw (fun r => r.positive_score) results /
          totalWeight vw rw results
      negative_score :=
        weightedSum vw rw (fun r => r.negative_score) results /
          totalWeight vw rw results
      neutral_score :=
        weightedSum vw rw (fun r => r.neutral_score) results /
          totalWeight vw rw results
      confidence :=
        weightedSum vw rw (fun r => r.confidence) results /
          totalWeight vw rw results
      model_count := results.length
      models_used := (aggDict results).map Prod.fst
      individual_results := aggDict results }

/-- `SentimentAnalyzer.get_sentiment_label` with its source thresholds
`0.05` / `-0.05`. -/
def getSentimentLabel (compound_score : ℚ) : String :=
  if 1/20 ≤ compound_score then "positive"
  else if compound_score ≤ -(1/20) then "negative"
  else "neutral"

/-- The order-insensitive view of an aggregated record that claim C1
speaks about: the five weighted scalars, the model count, and the
contributing-model set. -/
def aggView (a : AggregatedSentiment) :
    ℚ × ℚ × ℚ × ℚ × ℚ × ℕ × Finset String :=
  (a.compound_score, a.positive_score, a.negative_score, a.neutral_score,
    a.confidence, a.model_count, a.models_used.toFinset)

/-- Bounds predicate for claim C6 on an optional aggregated record. -/
def aggInBounds : Option AggregatedSentiment → Prop
  | none => True
  | some a =>
    -1 ≤ a.compound_score ∧ a.compound_score ≤ 1 ∧
      0 ≤ a.confidence ∧ a.confidence ≤ 1

/-! ## Time-series analytics (`SentimentAnalytics` of analytics.py)

A stored sample is a pair `(timestamp, sentiment)`, the timestamp counted
in hours (the source converts `timestamp - timestamp.min()` to hours
before regressing, so an hour-valued clock is the identical model). -/

/-- Ascending stable-enough sort by timestamp, modelling
`df.sort_values('timestamp')`. -/
def sortByTime (samples : List (ℚ × ℚ)) : List (ℚ × ℚ) :=
  List.insertionSort (fun p q => p.1 ≤ q.1) samples

/-- Arithmetic mean of a list (0/0 = 0 for the empty list, which matches
the guarded uses below). -/
def mean (l : List ℚ) : ℚ := l.sum / l.length

/-- Centered sum of squares `Σ (x - mean)²`. -/
def ssq (l : List ℚ) : ℚ := (l.map (fun x => (x - mean l) ^ 2)).sum

/-- Centered cross sum `Σ (x - mean xs)(y - mean ys)`. -/
def sxy (xs ys : List ℚ) : ℚ :=
  (List.zipWith (fun x y => (x - mean xs) * (y - mean ys)) xs ys).sum

/-- `TrendAnalysis` of analytics.py.  `trend_strength` in the source is
`abs(r_value)`, an irrational square root; the embedding carries its
square (equal to `r_squared`), which determines it monotonically, and all
claims about it are zero/nonzero claims where the two coincide.
`keyword`/`period_hours` are unread pass-through inputs and are omitted. -/
structure TrendAnalysis where
  trend_direction : String
  trend_strength_sq : ℚ
  sentiment_change : ℚ
  confidence_score : ℚ
  data_points : ℕ
  r_squared : ℚ
deriving DecidableEq, Repr

/-- `SentimentAnalytics.analyze_trends`.  `scipy.stats.linregress` raises
`ValueError` when all x values are identical; the surrounding
`except` then returns the all-zero `error` record, which is the
`allXEqual` branch here.  Otherwise `slope = sxy/ssq xs`,
`r² = sxy²/(ssq xs · ssq ys)` (0 when `ssq ys = 0`, clamped to 1 exactly
as the float code clamps `r` to `[-1, 1]`). -/
def analyzeTrends (samples : List (ℚ × ℚ)) : TrendAnalysis :=
  if samples.length < 3 then
    ⟨"insufficient_data", 0, 0, 0, samples.length, 0⟩
  else
    let sorted := sortByTime samples
    let tmin := (sorted.headD (0, 0)).1
    let xs := sorted.map (fun p => p.1 - tmin)
    let ys := sorted.map (fun p => p.2)
    if xs.all (fun x => x = xs.headD 0) then
      ⟨"error", 0, 0, 0, 0, 0⟩
    else
      let slope := sxy xs ys / ssq xs
      let r2 :=
        if ssq ys = 0 then 0
        else min (sxy xs ys ^ 2 / (ssq xs * ssq ys)) 1
      let dir :=
        if |slope| < 1/1000 then "stable"
        else if 0 < slope then "improving"
        else "declining"
      ⟨dir, r2, ys.getLastD 0 - ys.headD 0,
        min (r2 * (samples.length / 10 : ℚ)) 1, samples.length, r2⟩

/-- `MomentumResult`: the rational fields of the dict returned by
`calculate_momentum`.  `volatility` is a standard deviation (a square
root); the embedding carries its square `volatility_sq`; the derived
`momentum_strength = |roc|·(1 - volatility)` is determined by
`rate_of_change` and `volatility_sq` and is not separately carried. -/
structure MomentumResult where
  current : ℚ
  sma_5 : ℚ
  sma_10 : ℚ
  momentum_signal : String
  volatility_sq : ℚ
  rate_of_change : ℚ
deriving DecidableEq, Repr

/-- Sentinel-or-result outcome of `calculate_momentum`: the source
returns `{'error': 'Insufficient data for momentum calculation'}` below
five samples and a populated dict otherwise. -/
inductive MomentumOutcome where
  | insufficient : MomentumOutcome
  | result : MomentumResult → MomentumOutcome
deriving DecidableEq, Repr

/-- `SentimentAnalytics.calculate_momentum`.  Rolling means with window w
evaluated at the last row are means of the last w values; `tail(10).std()`
is the sample standard deviation of the last `min(10, n)` values. -/
def calculateMomentum (samples : List (ℚ × ℚ)) : MomentumOutcome :=
  if samples.length < 5 then .insufficient
  else
    let ys := (sortByTime samples).map (fun p => p.2)
    let n := ys.length
    let current := ys.getLastD 0
    let sma5 := (ys.drop (n - 5)).sum / 5
    let k10 := min 10 n
    let sma10 := (ys.drop (n - k10)).sum / (k10 : ℚ)
    let tail10 := ys.drop (n - k10)
    let volSq := ssq tail10 / ((tail10.length : ℚ) - 1)
    let rocp := min 5 (n - 1)
    let roc :=
      if 0 < rocp then (current - ys.getD (n - 1 - rocp) 0) / (rocp : ℚ)
      else 0
    let signal :=
      if sma5 < current ∧ sma10 < sma5 then "bullish"
      else if current < sma5 ∧ sma5 < sma10 then "bearish"
      else "neutral"
    .result ⟨current, sma5, sma10, signal, volSq, roc⟩

/-- The rolling window of width `w` ending at row `i` (pandas
`rolling(window=w)` at row `i` covers rows `i-w+1 .. i`). -/
def rollWindow (l : List ℚ) (w i : ℕ) : List ℚ :=
  (l.take (i + 1)).drop (i + 1 - w)

/-- Numerator `Σ (x - window mean)²` of the rolling sample variance of
the window ending at row `i`; the variance itself is this over `w - 1`. -/
def windowVarNum (l : List ℚ) (w i : ℕ) : ℚ :=
  ((rollWindow l w i).map
    (fun x => (x - mean (rollWindow l w i)) ^ 2)).sum

/-- Whether row `i` is flagged by `detect_anomalies`' test
`abs(z_score) > 2` with `z = (sentiment - rolling_mean) / rolling_std`.
Rows with fewer than `w` values or `w < 2` have `rolling_std = NaN` and a
NaN comparison is `False`.  When the window variance is zero the float
code divides by `0.0`: `0/0 = NaN` (not flagged) and `±x/0 = ±inf`
(flagged), i.e. flagged exactly when the sentiment differs from the
window mean.  Otherwise `|z| > 2` is compared on squares:
`(s - mean)² · (w-1) > 4 · varNum` since `std² = varNum/(w-1)`. -/
def anomalyFlag (l : List ℚ) (w i : ℕ) : Bool :=
  if i + 1 < w ∨ w < 2 then false
  else
    let s := l.getD i 0
    let m := mean (rollWindow l w i)
    if windowVarNum l w i = 0 then decide (s ≠ m)
    else decide ((s - m) ^ 2 * ((w : ℚ) - 1) > 4 * windowVarNum l w i)

/-- `AnomalyRecord`: one row of the list returned by `detect_anomalies`.
The reported `z_score` is irrational (it divides by a standard
deviation); the record keeps the row data and the derived discrete
fields. -/
structure AnomalyRecord where
  timestamp : ℚ
  sentiment : ℚ
  kind : String
  severity : String
  deviation : ℚ
deriving DecidableEq, Repr

/-- Severity of a flagged row: `high` iff `|z| > 3`, again compared on
squares, with the zero-variance (infinite z) case necessarily high. -/
def anomalySeverity (l : List ℚ) (w i : ℕ) : String :=
  let s := l.getD i 0
  let m := mean (rollWindow l w i)
  if windowVarNum l w i = 0 then "high"
  else if (s - m) ^ 2 * ((w : ℚ) - 1) > 9 * windowVarNum l w i then "high"
  else "medium"

/-- `SentimentAnalytics.detect_anomalies`: empty below 20 samples, else
the flagged rows of the time-sorted series with window
`min(10, count // 2)`. -/
def detectAnomalies (samples : List (ℚ × ℚ)) : List AnomalyRecord :=
  if samples.length < 20 then []
  else
    let sorted := sortByTime samples
    let l := sorted.map (fun p => p.2)
    let w := min 10 (samples.length / 2)
    (List.range samples.length).filterMap (fun i =>
      if anomalyFlag l w i then
        some
          { timestamp := (sorted.getD i (0, 0)).1
            sentiment := l.getD i 0
            kind :=
              if mean (rollWindow l w i) < l.getD i 0 then "positive_spike"
              else "negative_spike"
            severity := anomalySeverity l w i
            deviation := |l.getD i 0 - mean (rollWindow l w i)| }
      else none)

/-- `AlertCondition` of analytics.py (`keyword` and the formatted
`message` string are presentation fields and are omitted). -/
structure AlertCondition where
  alert_type : String
  severity : String
  current_value : ℚ
  threshold_value : ℚ
  triggered : Bool
deriving DecidableEq, Repr

/-- The alert configuration consumed by `check_alert_conditions`
(`config.alerts` plus its `thresholds` mapping). -/
structure AlertsConfig where
  enabled : Bool
  very_negative : ℚ
  negative : ℚ
  very_positive : ℚ
  volume_threshold : ℕ
  rapid_change_threshold : ℚ
deriving DecidableEq, Repr

/-- `SentimentAnalytics.check_alert_conditions` on the values it reads:
the 1-hour summary's `avg_sentiment` and `total_posts`, and the 6-hour
trend's `sentiment_change`.  The sentiment tiers are one `if/elif/elif`
chain; the volume and rapid-change checks are appended independently. -/
def checkAlertConditions (cfg : AlertsConfig) (avg_sentiment : ℚ)
    (volume : ℕ) (trend_change : ℚ) : List AlertCondition :=
  if !cfg.enabled then []
  else
    (if avg_sentiment ≤ cfg.very_negative then
      [⟨"sentiment_threshold", "critical", avg_sentiment,
        cfg.very_negative, true⟩]
    else if avg_sentiment ≤ cfg.negative then
      [⟨"sentiment_threshold", "high", avg_sentiment, cfg.negative, true⟩]
    else if cfg.very_positive ≤ avg_sentiment then
      [⟨"sentiment_threshold", "low", avg_sentiment,
        cfg.very_positive, true⟩]
    else []) ++
    (if cfg.volume_threshold < volume then
      [⟨"volume_spike", "medium", volume, cfg.volume_threshold, true⟩]
    else []) ++
    (if cfg.rapid_change_threshold < |trend_change| then
      [⟨"rapid_change", "medium", |trend_change|,
        cfg.rapid_change_threshold, true⟩]
    else [])

/-! ## Shared lemmas -/

lemma sum_map_neg {α : Type} (l : List α) (f : α → ℚ) :
    (l.map (fun x => -f x)).sum = -(l.map f).sum := by
  induction l with
  | nil => simp
  | cons a t ih =>
    simp only [List.map_cons, List.sum_cons, ih]
    ring

lemma all_zero_of_sum_nonneg_eq_zero {l : List ℚ}
    (hnn : ∀ x ∈ l, 0 ≤ x) (h : l.sum = 0) : ∀ x ∈ l, x = 0 := by
  induction l with
  | nil => simp
  | cons a t ih =>
    have ha : 0 ≤ a := hnn a (by simp)
    have ht : 0 ≤ t.sum := List.sum_nonneg (fun x hx => hnn x (by simp [hx]))
    have hsum : a + t.sum = 0 := by simpa using h
    have ha0 : a = 0 := by linarith
    have ht0 : t.sum = 0 := by linarith
    intro x hx
    rcases List.mem_cons.mp hx with rfl | hx
    · exact ha0
    · exact ih (fun y hy => hnn y (by simp [hy])) ht0 x hx

lemma all_eq_of_sum_sq_eq_zero {m : ℚ} {l : List ℚ}
    (h : (l.map (fun x => (x - m) ^ 2)).sum = 0) : ∀ x ∈ l, x = m := by
  intro x hx
  have hz := all_zero_of_sum_nonneg_eq_zero
    (l := l.map (fun x => (x - m) ^ 2))
    (by intro y hy
        simp only [List.mem_map] at hy
        obtain ⟨z, _, rfl⟩ := hy
        positivity) h
  have := hz ((x - m) ^ 2) (List.mem_map_of_mem _ hx)
  have hxm : x - m = 0 := by
    have := sq_abs (x - m) ▸ this
    nlinarith [sq_nonneg (x - m)]
  linarith [hxm]

/-! ## Aggregator lemmas -/

lemma resolveWeight_nonneg {vw rw : ℚ} (hv : 0 ≤ vw) (hr : 0 ≤ rw)
    (name : String) : 0 ≤ resolveWeight vw rw name := by
  unfold resolveWeight
  split
  · exact hv
  · split
    · exact hr
    · norm_num

lemma mem_map_fst_dictInsert (d : List (String × ModelResult)) (k : String)
    (v : ModelResult) (x : String) :
    x ∈ (dictInsert d k v).map Prod.fst ↔ x ∈ d.map Prod.fst ∨ x = k := by
  unfold dictInsert
  by_cases h : d.any (fun p => p.1 = k)
  · simp only [h, if_true]
    have hmap : (d.map (fun p => if p.1 = k then (k, v) else p)).map Prod.fst
        = d.map Prod.fst := by
      rw [List.map_map]
      apply List.map_congr_left
      intro p _
      by_cases hp : p.1 = k <;> simp [hp]
    rw [hmap]
    constructor
    · exact Or.inl
    · rintro (hx | rfl)
      · exact hx
      · rcases List.any_eq_true.mp h with ⟨p, hp, hpk⟩
        simp only [decide_eq_true_eq] at hpk
        exact hpk ▸ List.mem_map_of_mem _ hp
  · simp [h]

lemma mem_aggDict_keys (results : List ModelResult) (x : String) :
    x ∈ (aggDict results).map Prod.fst ↔
      x ∈ results.map (fun r => extractKey r.model_name) := by
  have hgen : ∀ (rs : List ModelResult) (d : List (String × ModelResult)),
      x ∈ (rs.foldl
        (fun d r => dictInsert d (extractKey r.model_name) r) d).map Prod.fst
        ↔ x ∈ d.map Prod.fst ∨
          x ∈ rs.map (fun r => extractKey r.model_name) := by
    intro rs
    induction rs with
    | nil => simp
    | cons r t ih =>
      intro d
      simp only [List.foldl_cons, List.map_cons, List.mem_cons]
      rw [ih, mem_map_fst_dictInsert]
      tauto
  unfold aggDict
  rw [hgen]
  simp

/-! ## Label lemmas -/

/-- Claim C5: for every compound score `c`, `get_sentiment_label` returns
`positive` iff `c ≥ 0.05`, `negative` iff `c ≤ -0.05` and `neutral`
otherwise; at `c = 0.05` it returns `positive`, at `c = 0.049999`
`neutral`, and at `c = -0.05` `negative`. -/
theorem label_thresholds :
    ∀ c : ℚ,
      (getSentimentLabel c = "positive" ↔ 1/20 ≤ c) ∧
      (getSentimentLabel c = "negative" ↔ c ≤ -(1/20)) ∧
      (getSentimentLabel c = "neutral" ↔ -(1/20) < c ∧ c < 1/20) ∧
      getSentimentLabel (1/20) = "positive" ∧
      getSentimentLabel (49999/1000000) = "neutral" ∧
      getSentimentLabel (-(1/20)) = "negative" := by
  intro c
  have hconc1 : getSentimentLabel (1/20) = "positive" := by
    norm_num [getSentimentLabel]
  have hconc2 : getSentimentLabel (49999/1000000) = "neutral" := by
    norm_num [getSentimentLabel]
  have hconc3 : getSentimentLabel (-(1/20)) = "negative" := by
    norm_num [getSentimentLabel]
  refine ⟨?_, ?_, ?_, hconc1, hconc2, hconc3⟩
  · constructor
    · intro h
      unfold getSentimentLabel at h
      split_ifs at h with h1 h2
      · exact h1
      · simp at h
      · simp at h
    · intro h
      unfold getSentimentLabel
      rw [if_pos h]
  · constructor
    · intro h
      unfold getSentimentLabel at h
      split_ifs at h with h1 h2
      · simp at h
      · exact h2
      · simp at h
    · intro h
      unfold getSentimentLabel
      rw [if_neg (by linarith), if_pos h]
  · constructor
    · intro h
      unfold getSentimentLabel at h
      split_ifs at h with h1 h2
      · simp at h
      · simp at h
      · exact ⟨by linarith, by linarith⟩
    · rintro ⟨ha, hb⟩
      unfold getSentimentLabel
      rw [if_neg (by linarith), if_neg (by linarith)]

/-! ## Aggregator theorems -/

/-- Claim C2 (amended): `get_weighted_sentiment` returns `None` iff the
result list is empty **or** the total resolved weight is zero; the
source's claim that `None` occurs only on empty input fails when every
contributing model resolves to weight 0. -/
theorem aggregator_none_iff (vw rw : ℚ) (results : List ModelResult) :
    getWeightedSentiment vw rw results = none ↔
      results = [] ∨ totalWeight vw rw results = 0 := by
  unfold getWeightedSentiment
  by_cases he : results = []
  · subst he
    simp [totalWeight]
  · have h1 : results.isEmpty = false := by
      cases results
      · exact absurd rfl he
      · rfl
    by_cases h0 : totalWeight vw rw results = 0 <;>
      simp [h1, he, h0]

/-- The model result used by the counterexample to claim C2 as stated. -/
def c2res : ModelResult := ⟨"vader", 1/2, 1/4, 1/4, 1/2, 9/10⟩

/-- Counterexample to claim C2 as stated: a non-empty, well-formed result
list on which the aggregator nevertheless returns `None`, because the
configured vader weight is 0 and so the total weight is 0
(the `if total_weight == 0: return None` branch of the source). -/
theorem aggregator_none_counterexample :
    ([c2res] : List ModelResult) ≠ [] ∧
      getWeightedSentiment 0 (3/5) [c2res] = none := by
  constructor
  · simp
  · have hk : extractKey "vader" = "vader" := by decide
    have htw : totalWeight 0 (3/5) [c2res] = 0 := by
      simp [totalWeight, resolveWeight, hk, c2res]
    unfold getWeightedSentiment
    rw [htw]
    simp

/-- Claim C10: the weight key extracted from the neural adapter's model id
`cardiffnlp/twitter-roberta-base-sentiment-latest` is `twitter`
(last `/`-component, first `-`-token), which matches neither `vader` nor
`roberta`, so the result always resolves to the default weight 1.0
whatever the configured weights are. -/
theorem roberta_weight_never_applied :
    ∀ vw rw : ℚ,
      extractKey "cardiffnlp/twitter-roberta-base-sentiment-latest"
          = "twitter" ∧
        resolveWeight vw rw
          "cardiffnlp/twitter-roberta-base-sentiment-latest" = 1 := by
  intro vw rw
  have hk : extractKey "cardiffnlp/twitter-roberta-base-sentiment-latest"
      = "twitter" := by decide
  refine ⟨hk, ?_⟩
  unfold resolveWeight
  rw [hk, if_neg (by decide), if_neg (by decide)]

/-- Claim C1: the aggregator is order independent — permuting a non-empty
input list leaves every weighted scalar, the model count and the
contributing-model set of the aggregated result unchanged (and `None`
happens on one order iff it happens on the other). -/
theorem aggregator_order_independent (vw rw : ℚ)
    (results results' : List ModelResult) (hne : results ≠ [])
    (hp : results.Perm results') :
    Option.map aggView (getWeightedSentiment vw rw results) =
      Option.map aggView (getWeightedSentiment vw rw results') := by
  have htw : totalWeight vw rw results = totalWeight vw rw results' :=
    (hp.map _).sum_eq
  have hws : ∀ f : ModelResult → ℚ,
      weightedSum vw rw f results = weightedSum vw rw f results' :=
    fun f => (hp.map _).sum_eq
  have hlen : results.length = results'.length := hp.length_eq
  have hne' : results' ≠ [] := by
    intro h
    subst h
    exact hne hp.eq_nil
  have h1 : results.isEmpty = false := by
    cases results
    · exact absurd rfl hne
    · rfl
  have h2 : results'.isEmpty = false := by
    cases results'
    · exact absurd rfl hne'
    · rfl
  have hkeys : ((aggDict results).map Prod.fst).toFinset =
      ((aggDict results').map Prod.fst).toFinset := by
    ext x
    simp only [List.mem_toFinset, mem_aggDict_keys]
    exact (hp.map _).mem_iff
  unfold getWeightedSentiment
  rw [h1, h2]
  simp only [Bool.false_eq_true, if_false]
  rw [← htw]
  split_ifs with h0
  · rfl
  · simp only [Option.map_some']
    unfold aggView
    simp [hws, htw, hlen, hkeys]

/-- First model result of the C1 witness. -/
def c1resA : ModelResult := ⟨"vader", 1, 0, 0, 0, 1⟩

/-- Second model result of the C1 witness. -/
def c1resB : ModelResult :=
  ⟨"cardiffnlp/twitter-roberta-base-sentiment-latest", 1, 0, 0, 0, 1⟩

theorem aggregator_order_independent_witness :
    ([c1resA, c1resB] : List ModelResult) ≠ [] ∧
      Option.map aggView
          (getWeightedSentiment (2/5) (3/5) [c1resA, c1resB]) =
        Option.map aggView
          (getWeightedSentiment (2/5) (3/5) [c1resB, c1resA]) :=
  ⟨by simp,
    aggregator_order_independent (2/5) (3/5) _ _ (by simp)
      (List.Perm.swap c1resB c1resA [])⟩

/-- Claim C6: with well-formed per-model scores (compound in [-1,1],
confidence in [0,1]) and nonnegative configured weights, whenever the
aggregator returns a record its compound stays in [-1,1] and its
confidence stays in [0,1]. -/
theorem aggregator_bounds (vw rw : ℚ) (results : List ModelResult)
    (hb : ∀ r ∈ results, -1 ≤ r.compound_score ∧ r.compound_score ≤ 1 ∧
      0 ≤ r.confidence ∧ r.confidence ≤ 1)
    (hv : 0 ≤ vw) (hr : 0 ≤ rw) :
    aggInBounds (getWeightedSentiment vw rw results) := by
  unfold getWeightedSentiment
  by_cases he : results.isEmpty
  · simp [he, aggInBounds]
  · by_cases h0 : totalWeight vw rw results = 0
    · simp [he, h0, aggInBounds]
    · have hwnn : ∀ r ∈ results, 0 ≤ resolveWeight vw rw r.model_name :=
        fun r _ => resolveWeight_nonneg hv hr _
      have htwnn : 0 ≤ totalWeight vw rw results := by
        unfold totalWeight
        apply List.sum_nonneg
        intro x hx
        obtain ⟨r, hr', rfl⟩ := List.mem_map.mp hx
        exact hwnn r hr'
      have htwpos : 0 < totalWeight vw rw results :=
        lt_of_le_of_ne htwnn (Ne.symm h0)
      have hcub : weightedSum vw rw (fun r => r.compound_score) results ≤
          totalWeight vw rw results := by
        unfold weightedSum totalWeight
        apply List.sum_le_sum
        intro r hr'
        nlinarith [(hb r hr').2.1, hwnn r hr']
      have hclb : -(totalWeight vw rw results) ≤
          weightedSum vw rw (fun r => r.compound_score) results := by
        unfold weightedSum totalWeight
        rw [← sum_map_neg results (fun r => resolveWeight vw rw r.model_name)]
        apply List.sum_le_sum
        intro r hr'
        nlinarith [(hb r hr').1, hwnn r hr']
      have hcfnn : 0 ≤ weightedSum vw rw (fun r => r.confidence) results := by
        unfold weightedSum
        apply List.sum_nonneg
        intro x hx
        obtain ⟨r, hr', rfl⟩ := List.mem_map.mp hx
        exact mul_nonneg (hb r hr').2.2.1 (hwnn r hr')
      have hcfub : weightedSum vw rw (fun r => r.confidence) results ≤
          totalWeight vw rw results := by
        unfold weightedSum totalWeight
        apply List.sum_le_sum
        intro r hr'
        nlinarith [(hb r hr').2.2.2, hwnn r hr']
      simp only [he, h0, if_false, aggInBounds, Bool.false_eq_true]
      refine ⟨?_, ?_, ?_, ?_⟩
      · rw [le_div_iff₀ htwpos]
        linarith
      · rw [div_le_one htwpos]
        exact hcub
      · exact div_nonneg hcfnn (le_of_lt htwpos)
      · rw [div_le_one htwpos]
        exact hcfub

/-- The model result used by the C6 witness. -/
def c6res : ModelResult := ⟨"vader", 1/2, 1/4, 1/4, 1/2, 9/10⟩

theorem aggregator_bounds_witness :
    (∀ r ∈ ([c6res] : List ModelResult),
      -1 ≤ r.compound_score ∧ r.compound_score ≤ 1 ∧
        0 ≤ r.confidence ∧ r.confidence ≤ 1) ∧
    (0:ℚ) ≤ 2/5 ∧ (0:ℚ) ≤ 3/5 ∧
    getWeightedSentiment (2/5) (3/5) [c6res] ≠ none ∧
    aggInBounds (getWeightedSentiment (2/5) (3/5) [c6res]) := by
  have hk : extractKey "vader" = "vader" := by decide
  have hb : ∀ r ∈ ([c6res] : List ModelResult),
      -1 ≤ r.compound_score ∧ r.compound_score ≤ 1 ∧
        0 ≤ r.confidence ∧ r.confidence ≤ 1 := by
    intro r hr
    rcases List.mem_singleton.mp hr with rfl
    norm_num [c6res]
  have htw : totalWeight (2/5) (3/5) [c6res] = 2/5 := by
    simp [totalWeight, resolveWeight, hk, c6res]
  have hne : getWeightedSentiment (2/5) (3/5) [c6res] ≠ none := by
    unfold getWeightedSentiment
    rw [htw, if_neg (by simp), if_neg (by norm_num)]
    exact Option.some_ne_none _
  exact ⟨hb, by norm_num, by norm_num, hne,
    aggregator_bounds _ _ _ hb (by norm_num) (by norm_num)⟩

/-! ## Momentum, alert and anomaly theorems -/

/-- Claim C8: `calculate_momentum` returns the insufficient-data sentinel
exactly for inputs with fewer than 5 samples; on any other well-typed
input it returns a populated result record — the embedding is a total
function, so no input raises. -/
theorem momentum_insufficient_iff :
    ∀ samples : List (ℚ × ℚ),
      calculateMomentum samples = MomentumOutcome.insufficient ↔
        samples.length < 5 := by
  intro samples
  unfold calculateMomentum
  split_ifs with h
  · simp [h]
  · simp [h]

/-- Claim C9: the three sentiment tiers of `check_alert_conditions` form
one `if/elif/elif` chain, so every evaluation emits at most one
`sentiment_threshold` condition; in particular `avg_sentiment = -0.9`
against thresholds `very_negative = -0.8`, `negative = -0.3` yields
exactly the critical condition and no `high` one. -/
theorem alert_tiers_first_match_wins :
    (∀ (cfg : AlertsConfig) (avg : ℚ) (vol : ℕ) (chg : ℚ),
      ((checkAlertConditions cfg avg vol chg).filter
        (fun c => decide (c.alert_type = "sentiment_threshold"))).length ≤ 1) ∧
    (checkAlertConditions ⟨true, -(4/5), -(3/10), 4/5, 100, 1/2⟩
        (-(9/10)) 0 0).filter
        (fun c => decide (c.alert_type = "sentiment_threshold")) =
      [⟨"sentiment_threshold", "critical", -(9/10), -(4/5), true⟩] := by
  constructor
  · intro cfg avg vol chg
    unfold checkAlertConditions
    split_ifs with h h1 h2 h3 h4 h5 <;>
      simp [List.filter_append, List.filter]
  · have hcrit : (-(9/10) : ℚ) ≤ -(4/5) := by norm_num
    have hvol : ¬ ((100 : ℕ) < 0) := by norm_num
    have hrcp : ¬ ((1/2 : ℚ) < |(0 : ℚ)|) := by norm_num
    unfold checkAlertConditions
    simp only [Bool.not_true, Bool.false_eq_true, if_false, hcrit, if_pos,
      hvol, hrcp, if_neg, List.append_nil, List.filter]
    simp

/-- Claim C4: in `detect_anomalies` over at least 20 samples, a row whose
rolling window has zero variance is never flagged: its sentiment is
necessarily equal to the rolling mean (it lies inside its own window), so
the float `z = 0/0 = NaN` comparison is false and no division error can
occur — the embedding `anomalyFlag` returns `false` for that row, hence
`detectAnomalies` emits no record for it. -/
theorem anomaly_zero_variance_not_flagged (samples : List (ℚ × ℚ)) (i : ℕ)
    (h20 : 20 ≤ samples.length) (hi : i < samples.length)
    (hvar : windowVarNum ((sortByTime samples).map (fun p => p.2))
      (min 10 (samples.length / 2)) i = 0) :
    anomalyFlag ((sortByTime samples).map (fun p => p.2))
      (min 10 (samples.length / 2)) i = false := by
  set l := (sortByTime samples).map (fun p => p.2) with hl
  set w := min 10 (samples.length / 2) with hw
  have hlw : l.length = samples.length := by
    rw [hl, List.length_map, sortByTime, List.length_insertionSort]
  unfold anomalyFlag
  by_cases hcase : i + 1 < w ∨ w < 2
  · rw [if_pos hcase]
  · rw [if_neg hcase]
    push_neg at hcase
    have hwi : w ≤ i + 1 := hcase.1
    have hw2 : 2 ≤ w := hcase.2
    have hil : i < l.length := by omega
    have hwin_len : (rollWindow l w i).length = w := by
      unfold rollWindow
      rw [List.length_drop, List.length_take]
      omega
    have hw1 : w - 1 < (rollWindow l w i).length := by omega
    have hgetwin : (rollWindow l w i)[w - 1] = l[i] := by
      unfold rollWindow at hw1 ⊢
      rw [List.getElem_drop, List.getElem_take]
      congr 1
      omega
    have hmem : l[i] ∈ rollWindow l w i := hgetwin ▸ List.getElem_mem hw1
    have hseq : l[i] = mean (rollWindow l w i) := by
      have := all_eq_of_sum_sq_eq_zero (m := mean (rollWindow l w i))
        (l := rollWindow l w i) hvar
      exact this _ hmem
    rw [if_pos hvar]
    have hsd : l.getD i 0 = l[i] := List.getD_eq_getElem l 0 hil
    rw [hsd, hseq]
    simp

/-- Concrete data for the C4 witness: twenty samples with constant zero
sentiment at hours 0..19 (every full rolling window has zero variance). -/
def c4samples : List (ℚ × ℚ) :=
  (List.range 20).map (fun i : ℕ => ((i : ℚ), 0))

lemma c4samples_length : c4samples.length = 20 := by
  simp [c4samples]

lemma c4samples_sorted : sortByTime c4samples = c4samples := by
  apply List.Sorted.insertionSort_eq
  unfold c4samples
  apply List.pairwise_map.mpr
  have hlt : List.Pairwise (· < ·) (List.range 20) := List.pairwise_lt_range 20
  apply hlt.imp
  intro a b h
  simp only
  exact_mod_cast Nat.le_of_lt h

lemma c4samples_sentiments :
    (sortByTime c4samples).map (fun p => p.2) = List.replicate 20 (0 : ℚ) := by
  rw [c4samples_sorted]
  unfold c4samples
  rw [List.map_map]
  simp [Function.comp_def, List.map_const']

theorem anomaly_zero_variance_witness :
    20 ≤ c4samples.length ∧ 19 < c4samples.length ∧
      windowVarNum ((sortByTime c4samples).map (fun p => p.2))
        (min 10 (c4samples.length / 2)) 19 = 0 ∧
      anomalyFlag ((sortByTime c4samples).map (fun p => p.2))
        (min 10 (c4samples.length / 2)) 19 = false := by
  have h1 : (20 : ℕ) ≤ c4samples.length := by rw [c4samples_length]
  have h2 : (19 : ℕ) < c4samples.length := by rw [c4samples_length]; omega
  have hvar : windowVarNum ((sortByTime c4samples).map (fun p => p.2))
      (min 10 (c4samples.length / 2)) 19 = 0 := by
    rw [c4samples_sentiments, c4samples_length]
    unfold windowVarNum rollWindow
    norm_num [List.take_replicate, List.drop_replicate, mean,
      List.sum_replicate, List.map_replicate]
  exact ⟨h1, h2, hvar,
    anomaly_zero_variance_not_flagged c4samples 19 h1 h2 hvar⟩

/-! ## Trend analyzer lemmas -/

lemma sum_map_affine (c d : ℚ) (l : List ℚ) :
    (l.map (fun x => c + d * x)).sum = c * l.length + d * l.sum := by
  induction l with
  | nil => simp
  | cons a t ih =>
    simp only [List.map_cons, List.sum_cons, ih, List.length_cons]
    push_cast
    ring

lemma mean_map_affine (c d : ℚ) {l : List ℚ} (hne : l ≠ []) :
    mean (l.map (fun x => c + d * x)) = c + d * mean l := by
  have hn : (l.length : ℚ) ≠ 0 := by
    simp [List.length_eq_zero, hne]
  unfold mean
  rw [List.length_map, sum_map_affine]
  field_simp

lemma ssq_map_affine (c d : ℚ) {l : List ℚ} (hne : l ≠ []) :
    ssq (l.map (fun x => c + d * x)) = d ^ 2 * ssq l := by
  unfold ssq
  rw [mean_map_affine c d hne, List.map_map]
  rw [show ((fun y => (y - (c + d * mean l)) ^ 2) ∘ (fun x => c + d * x)) =
      fun x => d ^ 2 * (x - mean l) ^ 2 from funext fun x => by
        simp only [Function.comp_apply]
        ring]
  exact List.sum_map_mul_left l (fun x => (x - mean l) ^ 2) (d ^ 2)

lemma sxy_map_affine (c d : ℚ) {l : List ℚ} (hne : l ≠ []) :
    sxy l (l.map (fun x => c + d * x)) = d * ssq l := by
  unfold sxy ssq
  rw [mean_map_affine c d hne, List.zipWith_map_right, List.zipWith_same]
  rw [show (fun a => (a - mean l) * (c + d * a - (c + d * mean l))) =
      fun a => d * (a - mean l) ^ 2 from funext fun a => by ring]
  exact List.sum_map_mul_left l (fun x => (x - mean l) ^ 2) d

lemma getLastD_map_snd (l : List (ℚ × ℚ)) (p : ℚ × ℚ) :
    (l.map (fun q => q.2)).getLastD p.2 = (l.getLastD p).2 := by
  induction l generalizing p with
  | nil => simp
  | cons q t ih =>
    rw [List.map_cons, List.getLastD_cons, List.getLastD_cons, ih q]

/-- Closed form of `analyze_trends` on a strictly time-increasing series
whose sentiment is an exact affine function `s = a + b·t` of the
timestamp with `b ≠ 0`: the fitted slope is `b` and `r² = 1`. -/
lemma analyzeTrends_affine (samples : List (ℚ × ℚ)) (a b : ℚ)
    (hlen : 3 ≤ samples.length)
    (hsort : List.Pairwise (fun p q => p.1 < q.1) samples)
    (haff : ∀ p ∈ samples, p.2 = a + b * p.1) (hbne : b ≠ 0) :
    analyzeTrends samples =
      ⟨(if |b| < 1/1000 then "stable"
        else if 0 < b then "improving" else "declining"), 1,
        (samples.getLastD (0, 0)).2 - (samples.headD (0, 0)).2,
        min (1 * ((samples.length : ℚ) / 10)) 1, samples.length, 1⟩ := by
  rcases samples with _ | ⟨p0, _ | ⟨p1, rest⟩⟩
  · simp at hlen
  · simp at hlen
  · set samples := p0 :: p1 :: rest with hsamples
    have hne : samples ≠ [] := by simp [hsamples]
    have hsorted_eq : sortByTime samples = samples :=
      List.Sorted.insertionSort_eq (hsort.imp (fun h => le_of_lt h))
    have h01 : p0.1 < p1.1 :=
      ((List.pairwise_cons.mp hsort).1 p1 (by simp [hsamples]))
    set t0 := (samples.headD (0, 0)).1 with ht0
    have ht0' : t0 = p0.1 := by simp [hsamples, ht0]
    set xs := samples.map (fun p => p.1 - t0) with hxs
    have hxsne : xs ≠ [] := by simp [hxs, hsamples]
    have hx0 : (0 : ℚ) ∈ xs := by
      rw [hxs, ht0']
      exact List.mem_map.mpr ⟨p0, by simp [hsamples], by ring⟩
    have hx1 : p1.1 - p0.1 ∈ xs := by
      rw [hxs, ht0']
      exact List.mem_map.mpr ⟨p1, by simp [hsamples], rfl⟩
    have hssq_ne : ssq xs ≠ 0 := by
      intro h0
      have hall := all_eq_of_sum_sq_eq_zero (m := mean xs) (l := xs) h0
      have h1 := hall 0 hx0
      have h2 := hall _ hx1
      rw [← h1] at h2
      linarith [h01, h2]
    have hys : samples.map (fun p => p.2) =
        xs.map (fun x => (a + b * t0) + b * x) := by
      rw [hxs, List.map_map]
      apply List.map_congr_left
      intro p hp
      simp only [Function.comp_apply]
      rw [haff p hp]
      ring
    have hall_ne : (xs.all (fun x => decide (x = xs.headD 0))) = false := by
      rw [List.all_eq_false]
      refine ⟨p1.1 - p0.1, hx1, ?_⟩
      have hhead : xs.headD 0 = 0 := by
        rw [hxs, ht0', hsamples]
        simp
      rw [hhead]
      simp only [decide_eq_true_eq]
      intro h
      rw [sub_eq_zero.mp h] at h01
      exact lt_irrefl _ h01
    have hsxy : sxy xs (samples.map (fun p => p.2)) = b * ssq xs := by
      rw [hys]
      exact sxy_map_affine _ _ hxsne
    have hssqy : ssq (samples.map (fun p => p.2)) = b ^ 2 * ssq xs := by
      rw [hys]
      exact ssq_map_affine _ _ hxsne
    have hssqy_ne : ssq (samples.map (fun p => p.2)) ≠ 0 := by
      rw [hssqy]
      exact mul_ne_zero (pow_ne_zero 2 hbne) hssq_ne
    have hslope : sxy xs (samples.map (fun p => p.2)) / ssq xs = b := by
      rw [hsxy]
      exact mul_div_cancel_right₀ b hssq_ne
    have hr2 : sxy xs (samples.map (fun p => p.2)) ^ 2 /
        (ssq xs * ssq (samples.map (fun p => p.2))) = 1 := by
      rw [hsxy, hssqy]
      rw [show (b * ssq xs) ^ 2 = b ^ 2 * ssq xs ^ 2 from by ring,
        show ssq xs * (b ^ 2 * ssq xs) = b ^ 2 * ssq xs ^ 2 from by ring]
      exact div_self (by
        exact mul_ne_zero (pow_ne_zero 2 hbne) (pow_ne_zero 2 hssq_ne))
    have hchange : (samples.map (fun p => p.2)).getLastD 0 -
        (samples.map (fun p => p.2)).headD 0 =
        (samples.getLastD (0, 0)).2 - (samples.headD (0, 0)).2 := by
      rw [show (0 : ℚ) = ((0 : ℚ), (0 : ℚ)).2 from rfl, getLastD_map_snd]
      rw [hsamples]
      simp
    unfold analyzeTrends
    rw [if_neg (by omega)]
    simp only [hsorted_eq, ← ht0, ← hxs]
    rw [hall_ne]
    rw [if_neg (by simp)]
    rw [if_neg hssqy_ne, hslope, hr2, min_self, hchange]

/-- Claim C7 (amended): below 3 samples `analyze_trends` returns the
all-zero `insufficient_data` record; for 3 or more samples forming a
perfectly linear, strictly time-increasing series whose slope is at least
the source's 0.001 stability cutoff, it returns `improving` with
`r_squared = 1` and `sentiment_change` = last sentiment − first
sentiment.  (For a slope below the cutoff the source classifies the same
perfectly linear increasing series as `stable`, see the
counterexample.) -/
theorem trend_analysis_boundaries :
    (∀ samples : List (ℚ × ℚ), samples.length < 3 →
      analyzeTrends samples =
        ⟨"insufficient_data", 0, 0, 0, samples.length, 0⟩) ∧
    (∀ (samples : List (ℚ × ℚ)) (a b : ℚ), 3 ≤ samples.length →
      List.Pairwise (fun p q => p.1 < q.1) samples →
      (∀ p ∈ samples, p.2 = a + b * p.1) → 1/1000 ≤ b →
      (analyzeTrends samples).trend_direction = "improving" ∧
      (analyzeTrends samples).r_squared = 1 ∧
      (analyzeTrends samples).sentiment_change =
        (samples.getLastD (0, 0)).2 - (samples.headD (0, 0)).2) := by
  constructor
  · intro samples h
    unfold analyzeTrends
    rw [if_pos h]
  · intro samples a b hlen hsort haff hb
    have hbpos : 0 < b := lt_of_lt_of_le (by norm_num) hb
    have habs : ¬ |b| < 1/1000 := by
      rw [abs_of_pos hbpos]
      linarith
    rw [analyzeTrends_affine samples a b hlen hsort haff (ne_of_gt hbpos)]
    refine ⟨?_, rfl, rfl⟩
    simp only
    rw [if_neg habs, if_pos hbpos]

/-- The concrete series refuting claim C7 as stated: perfectly linear and
strictly increasing with slope 1/2000. -/
def c7samples : List (ℚ × ℚ) := [(0, 0), (1, 1/2000), (2, 1/1000)]

/-- Counterexample to claim C7 as stated: a perfectly linear strictly
increasing 3-sample series (slope 1/2000 = 0.0005) satisfies every
hypothesis of the claim, yet `analyze_trends` classifies it `stable`
because `|slope| < 0.001`, not `improving`. -/
theorem trend_linear_counterexample :
    3 ≤ c7samples.length ∧
      List.Pairwise (fun p q => p.1 < q.1) c7samples ∧
      (∀ p ∈ c7samples, p.2 = 0 + (1/2000) * p.1) ∧
      (analyzeTrends c7samples).trend_direction = "stable" ∧
      (analyzeTrends c7samples).trend_direction ≠ "improving" := by
  have hlen : 3 ≤ c7samples.length := by norm_num [c7samples]
  have hsort : List.Pairwise (fun p q => p.1 < q.1) c7samples := by
    norm_num [c7samples, List.pairwise_cons]
  have haff : ∀ p ∈ c7samples, p.2 = 0 + (1/2000) * p.1 := by
    intro p hp
    fin_cases hp <;> norm_num
  have hdir : (analyzeTrends c7samples).trend_direction = "stable" := by
    rw [analyzeTrends_affine c7samples 0 (1/2000) hlen hsort haff
      (by norm_num)]
    simp only
    rw [if_pos (by rw [abs_of_pos (by norm_num)]; norm_num)]
  refine ⟨hlen, hsort, haff, hdir, ?_⟩
  rw [hdir]
  decide

/-- Concrete strictly increasing affine series for the C7 witness. -/
def c7witA : List (ℚ × ℚ) := [(0, 0), (1, 1), (2, 2)]

theorem trend_analysis_boundaries_witness :
    (([] : List (ℚ × ℚ)).length < 3 ∧
      analyzeTrends [] = ⟨"insufficient_data", 0, 0, 0, 0, 0⟩) ∧
    (3 ≤ c7witA.length ∧
      (analyzeTrends c7witA).trend_direction = "improving" ∧
      (analyzeTrends c7witA).r_squared = 1 ∧
      (analyzeTrends c7witA).sentiment_change =
        (c7witA.getLastD (0, 0)).2 - (c7witA.headD (0, 0)).2) := by
  have h1 := trend_analysis_boundaries.1 [] (by norm_num)
  have hlen : 3 ≤ c7witA.length := by norm_num [c7witA]
  have hsort : List.Pairwise (fun p q => p.1 < q.1) c7witA := by
    norm_num [c7witA, List.pairwise_cons]
  have haff : ∀ p ∈ c7witA, p.2 = 0 + 1 * p.1 := by
    intro p hp
    fin_cases hp <;> norm_num
  have h2 := trend_analysis_boundaries.2 c7witA 0 1 hlen hsort haff
    (by norm_num)
  exact ⟨⟨by norm_num, h1⟩, hlen, h2.1, h2.2.1, h2.2.2⟩

/-! ## Normalizer lemmas -/

/-- Head is not whitespace (empty list allowed). -/
def headNS : List Char → Bool
  | [] => true
  | c :: _ => !c.isWhitespace

/-- The shape of `' '.join`-canonical text: no two adjacent whitespace
characters, every whitespace character is a plain blank, and the last
character is not whitespace. -/
def canonB : List Char → Bool
  | [] => true
  | [c] => !c.isWhitespace
  | c1 :: c2 :: cs =>
    (!c1.isWhitespace || (decide (c1 = ' ') && !c2.isWhitespace)) &&
      canonB (c2 :: cs)

lemma words_ws (c : Char) (cs : List Char) (h : c.isWhitespace = true) :
    words (c :: cs) = words cs := by
  cases cs <;> simp [words, h]

lemma words_single (c : Char) (h : c.isWhitespace = false) :
    words [c] = [[c]] := by
  simp [words, h]

lemma words_cons_ws (c c2 : Char) (cs : List Char)
    (h : c.isWhitespace = false) (h2 : c2.isWhitespace = true) :
    words (c :: c2 :: cs) = [c] :: words (c2 :: cs) := by
  simp [words, h, h2]

lemma words_cons_cons (c c2 : Char) (cs : List Char)
    (w : List Char) (ws : List (List Char))
    (h : c.isWhitespace = false) (h2 : c2.isWhitespace = false)
    (hw : words (c2 :: cs) = w :: ws) :
    words (c :: c2 :: cs) = (c :: w) :: ws := by
  simp [words, h, h2, hw, wordsGlue]

lemma words_ne_nil (cs : List Char) :
    ∀ c : Char, c.isWhitespace = false → words (c :: cs) ≠ [] := by
  induction cs with
  | nil =>
    intro c h
    rw [words_single c h]
    simp
  | cons c2 cs' ih =>
    intro c h
    cases h2 : c2.isWhitespace
    · obtain ⟨w, ws, hw⟩ : ∃ w ws, words (c2 :: cs') = w :: ws := by
        rcases e : words (c2 :: cs') with _ | ⟨w, ws⟩
        · exact absurd e (ih c2 h2)
        · exact ⟨w, ws, rfl⟩
      rw [words_cons_cons c c2 cs' w ws h h2 hw]
      simp
    · rw [words_cons_ws c c2 cs' h h2]
      simp

lemma words_good :
    ∀ (l : List Char) (w : List Char), w ∈ words l →
      w ≠ [] ∧ ∀ c ∈ w, c.isWhitespace = false := by
  intro l
  induction l with
  | nil => simp [words]
  | cons c cs ih =>
    intro w hw
    cases hc : c.isWhitespace
    · cases cs with
      | nil =>
        rw [words_single c hc] at hw
        rcases List.mem_singleton.mp hw with rfl
        refine ⟨by simp, ?_⟩
        intro d hd
        rcases List.mem_singleton.mp hd with rfl
        exact hc
      | cons c2 cs' =>
        cases hc2 : c2.isWhitespace
        · obtain ⟨w0, ws0, hw0⟩ : ∃ w0 ws0, words (c2 :: cs') = w0 :: ws0 := by
            rcases e : words (c2 :: cs') with _ | ⟨w0, ws0⟩
            · exact absurd e (words_ne_nil cs' c2 hc2)
            · exact ⟨w0, ws0, rfl⟩
          rw [words_cons_cons c c2 cs' w0 ws0 hc hc2 hw0] at hw
          rcases List.mem_cons.mp hw with rfl | hw'
          · have h0 := ih w0 (hw0 ▸ List.mem_cons_self w0 ws0)
            refine ⟨by simp, ?_⟩
            intro d hd
            rcases List.mem_cons.mp hd with rfl | hd'
            · exact hc
            · exact h0.2 d hd'
          · exact ih w (hw0 ▸ List.mem_cons_of_mem w0 hw')
        · rw [words_cons_ws c c2 cs' hc hc2] at hw
          rcases List.mem_cons.mp hw with rfl | hw'
          · refine ⟨by simp, ?_⟩
            intro d hd
            rcases List.mem_singleton.mp hd with rfl
            exact hc
          · exact ih w hw'
    · rw [words_ws c cs hc] at hw
      exact ih w hw

lemma mem_of_mem_words :
    ∀ (l w : List Char), w ∈ words l → ∀ c ∈ w, c ∈ l := by
  intro l
  induction l with
  | nil => simp [words]
  | cons c cs ih =>
    intro w hw d hd
    cases hc : c.isWhitespace
    · cases cs with
      | nil =>
        rw [words_single c hc] at hw
        rcases List.mem_singleton.mp hw with rfl
        rcases List.mem_singleton.mp hd with rfl
        simp
      | cons c2 cs' =>
        cases hc2 : c2.isWhitespace
        · obtain ⟨w0, ws0, hw0⟩ : ∃ w0 ws0, words (c2 :: cs') = w0 :: ws0 := by
            rcases e : words (c2 :: cs') with _ | ⟨w0, ws0⟩
            · exact absurd e (words_ne_nil cs' c2 hc2)
            · exact ⟨w0, ws0, rfl⟩
          rw [words_cons_cons c c2 cs' w0 ws0 hc hc2 hw0] at hw
          rcases List.mem_cons.mp hw with rfl | hw'
          · rcases List.mem_cons.mp hd with rfl | hd'
            · simp
            · exact List.mem_cons_of_mem c
                (ih w0 (hw0 ▸ List.mem_cons_self w0 ws0) d hd')
          · exact List.mem_cons_of_mem c
              (ih w (hw0 ▸ List.mem_cons_of_mem w0 hw') d hd)
        · rw [words_cons_ws c c2 cs' hc hc2] at hw
          rcases List.mem_cons.mp hw with rfl | hw'
          · rcases List.mem_singleton.mp hd with rfl
            simp
          · exact List.mem_cons_of_mem c (ih w hw' d hd)
    · rw [words_ws c cs hc] at hw
      exact List.mem_cons_of_mem c (ih w hw d hd)

lemma unwords_cons (w : List Char) (ws : List (List Char)) (h : ws ≠ []) :
    unwords (w :: ws) = w ++ ' ' :: unwords ws := by
  cases ws with
  | nil => exact absurd rfl h
  | cons w2 ws' => rfl

lemma unwords_cons_head (c : Char) (w : List Char)
    (ws : List (List Char)) :
    unwords ((c :: w) :: ws) = c :: unwords (w :: ws) := by
  cases ws with
  | nil => rfl
  | cons w2 ws' => rfl

lemma unwords_ne_nil (w : List Char) (ws : List (List Char))
    (h : w ≠ []) : unwords (w :: ws) ≠ [] := by
  cases ws with
  | nil => exact h
  | cons w2 ws' =>
    rw [unwords_cons _ _ (by simp)]
    simp [h]

lemma mem_unwords :
    ∀ (ws : List (List Char)) (c : Char), c ∈ unwords ws →
      c = ' ' ∨ ∃ w ∈ ws, c ∈ w := by
  intro ws
  induction ws with
  | nil => simp [unwords]
  | cons w ws' ih =>
    intro c hc
    cases ws' with
    | nil => exact Or.inr ⟨w, by simp, hc⟩
    | cons w2 ws'' =>
      rw [unwords_cons _ _ (by simp)] at hc
      rcases List.mem_append.mp hc with hw | hrest
      · exact Or.inr ⟨w, by simp, hw⟩
      · rcases List.mem_cons.mp hrest with rfl | hu
        · exact Or.inl rfl
        · rcases ih c hu with h | ⟨w', hw', hc'⟩
          · exact Or.inl h
          · exact Or.inr ⟨w', List.mem_cons_of_mem w hw', hc'⟩

lemma canonB_cons2 (c1 c2 : Char) (cs : List Char) :
    canonB (c1 :: c2 :: cs) =
      ((!c1.isWhitespace || (decide (c1 = ' ') && !c2.isWhitespace)) &&
        canonB (c2 :: cs)) := by
  rfl

lemma canon_spacefree :
    ∀ w : List Char, (∀ c ∈ w, c.isWhitespace = false) →
      canonB w = true := by
  intro w
  induction w with
  | nil => intro _; rfl
  | cons c t ih =>
    intro h
    cases t with
    | nil =>
      show (!c.isWhitespace) = true
      simp [h c (by simp)]
    | cons c2 t' =>
      rw [canonB_cons2]
      have h1 : c.isWhitespace = false := h c (by simp)
      have h2 := ih (fun d hd => h d (List.mem_cons_of_mem c hd))
      simp [h1, h2]

lemma canon_glue :
    ∀ w : List Char, (∀ c ∈ w, c.isWhitespace = false) →
      ∀ u : List Char, u ≠ [] → headNS u = true → canonB u = true →
        canonB (w ++ ' ' :: u) = true := by
  intro w
  induction w with
  | nil =>
    intro _ u hne hh hc
    cases u with
    | nil => exact absurd rfl hne
    | cons d ds =>
      rw [List.nil_append, canonB_cons2]
      have hd : d.isWhitespace = false := by
        have := hh
        simp [headNS] at this
        simp [this]
      simp [hd, hc]
  | cons c w' ih =>
    intro h u hne hh hc
    have h1 : c.isWhitespace = false := h c (by simp)
    have htail := ih (fun d hd => h d (List.mem_cons_of_mem c hd)) u hne hh hc
    cases w' with
    | nil =>
      rw [List.cons_append, List.nil_append, canonB_cons2]
      rw [List.nil_append] at htail
      simp [h1, htail]
    | cons c2 w'' =>
      rw [List.cons_append, List.cons_append, canonB_cons2]
      rw [List.cons_append] at htail
      simp [h1, htail]

lemma unwords_good_canon :
    ∀ ws : List (List Char),
      (∀ w ∈ ws, w ≠ [] ∧ ∀ c ∈ w, c.isWhitespace = false) →
      canonB (unwords ws) = true ∧ headNS (unwords ws) = true := by
  intro ws
  induction ws with
  | nil => exact fun _ => ⟨rfl, rfl⟩
  | cons w ws' ih =>
    intro h
    have hw := h w (by simp)
    cases ws' with
    | nil =>
      constructor
      · exact canon_spacefree w hw.2
      · cases w with
        | nil => exact absurd rfl hw.1
        | cons c t =>
          show (!c.isWhitespace) = true
          simp [hw.2 c (by simp)]
    | cons w2 ws'' =>
      have ih' := ih (fun v hv => h v (List.mem_cons_of_mem w hv))
      have hw2 := h w2 (by simp)
      have hune : unwords (w2 :: ws'') ≠ [] := unwords_ne_nil w2 ws'' hw2.1
      rw [unwords_cons _ _ (by simp)]
      constructor
      · exact canon_glue w hw.2 _ hune ih'.2 ih'.1
      · cases hwn : w with
        | nil => exact absurd hwn hw.1
        | cons c t =>
          show (!c.isWhitespace) = true
          simp [hw.2 c (by simp [hwn])]

lemma normWs_canon (l : List Char) :
    canonB (normWs l) = true ∧ headNS (normWs l) = true :=
  unwords_good_canon (words l) (words_good l)

lemma unwords_words_eq :
    ∀ (n : ℕ) (l : List Char), l.length ≤ n → canonB l = true →
      headNS l = true → unwords (words l) = l := by
  intro n
  induction n with
  | zero =>
    intro l hl _ _
    have : l = [] := List.length_eq_zero.mp (Nat.le_zero.mp hl)
    subst this
    rfl
  | succ n ih =>
    intro l hl hc hh
    match l with
    | [] => rfl
    | [c] =>
      have h1 : c.isWhitespace = false := by
        have := hh
        simp [headNS] at this
        simp [this]
      rw [words_single c h1]
      rfl
    | c1 :: c2 :: cs =>
      have h1 : c1.isWhitespace = false := by
        have := hh
        simp [headNS] at this
        simp [this]
      rw [canonB_cons2, Bool.and_eq_true] at hc
      rcases hc with ⟨hpair, hrest⟩
      cases hc2 : c2.isWhitespace
      · obtain ⟨w, ws, hw⟩ : ∃ w ws, words (c2 :: cs) = w :: ws := by
          rcases e : words (c2 :: cs) with _ | ⟨w, ws⟩
          · exact absurd e (words_ne_nil cs c2 hc2)
          · exact ⟨w, ws, rfl⟩
        rw [words_cons_cons c1 c2 cs w ws h1 hc2 hw, unwords_cons_head,
          ← hw]
        have := ih (c2 :: cs) (by simp at hl ⊢; omega) hrest
          (by simp [headNS, hc2])
        rw [this]
      · -- c2 is whitespace: canonB forces c2 = ' ' and a nonspace next
        cases cs with
        | nil =>
          exfalso
          have : canonB [c2] = true := hrest
          have h2 : (!c2.isWhitespace) = true := this
          rw [hc2] at h2
          simp at h2
        | cons c3 cs' =>
          rw [canonB_cons2, Bool.and_eq_true] at hrest
          rcases hrest with ⟨hpair2, hrest2⟩
          have hc2' : c2 = ' ' ∧ c3.isWhitespace = false := by
            rw [Bool.or_eq_true] at hpair2
            rcases hpair2 with h' | h'
            · rw [hc2] at h'
              simp at h'
            · rw [Bool.and_eq_true] at h'
              rcases h' with ⟨ha, hb⟩
              refine ⟨of_decide_eq_true ha, ?_⟩
              simpa using hb
          obtain ⟨w, ws, hw⟩ : ∃ w ws, words (c3 :: cs') = w :: ws := by
            rcases e : words (c3 :: cs') with _ | ⟨w, ws⟩
            · exact absurd e (words_ne_nil cs' c3 hc2'.2)
            · exact ⟨w, ws, rfl⟩
          rw [words_cons_ws c1 c2 (c3 :: cs') h1 hc2,
            words_ws c2 (c3 :: cs') hc2, hw,
            unwords_cons _ _ (by simp), ← hw]
          have := ih (c3 :: cs') (by simp at hl ⊢; omega) hrest2
            (by simp [headNS, hc2'.2])
          rw [this, hc2'.1]
          rfl

lemma canonB_dots : canonB dots = true := by decide

lemma canon_take_dots :
    ∀ u : List Char, canonB u = true → ∀ m : ℕ,
      canonB (u.take m ++ dots) = true := by
  intro u
  induction u with
  | nil =>
    intro _ m
    simpa using canonB_dots
  | cons c cs ih =>
    intro hc m
    cases m with
    | zero => simpa using canonB_dots
    | succ k =>
      rw [List.take_succ_cons, List.cons_append]
      cases cs with
      | nil =>
        rw [List.take_nil, List.nil_append]
        have h1 : c.isWhitespace = false := by simpa [canonB] using hc
        show canonB (c :: '.' :: '.' :: ['.']) = true
        rw [canonB_cons2]
        have hd : canonB ('.' :: '.' :: ['.']) = true := by decide
        simp [h1, hd]
      | cons c2 cs' =>
        rw [canonB_cons2, Bool.and_eq_true] at hc
        rcases hc with ⟨hpair, hrest⟩
        cases k with
        | zero =>
          rw [List.take_zero, List.nil_append]
          show canonB (c :: '.' :: '.' :: ['.']) = true
          rw [canonB_cons2]
          have hd : canonB ('.' :: '.' :: ['.']) = true := by decide
          rw [Bool.or_eq_true] at hpair
          rcases hpair with h' | h'
          · simp [h', hd]
          · rw [Bool.and_eq_true] at h'
            simp [h'.1, hd]
        | succ j =>
          rw [List.take_succ_cons, List.cons_append, canonB_cons2]
          have htail := ih hrest (j + 1)
          rw [List.take_succ_cons, List.cons_append] at htail
          simp [hpair, htail]

lemma headNS_dots : headNS dots = true := by decide

lemma headNS_take_dots :
    ∀ u : List Char, headNS u = true → ∀ m : ℕ,
      headNS (u.take m ++ dots) = true := by
  intro u hh m
  cases u with
  | nil => simpa using headNS_dots
  | cons c cs =>
    cases m with
    | zero => simpa using headNS_dots
    | succ k =>
      rw [List.take_succ_cons, List.cons_append]
      exact hh

lemma truncate_canon {u : List Char} (hc : canonB u = true)
    (hh : headNS u = true) (m : ℕ) :
    canonB (truncateText m u) = true ∧
      headNS (truncateText m u) = true := by
  unfold truncateText
  split_ifs with h1
  · exact ⟨canon_take_dots u hc m, headNS_take_dots u hh m⟩
  · exact ⟨hc, hh⟩

lemma truncate_idem (m : ℕ) (u : List Char) :
    truncateText m (truncateText m u) = truncateText m u := by
  unfold truncateText
  by_cases h : m < u.length
  · rw [if_pos h]
    have htake : (u.take m).length = m := by
      rw [List.length_take]
      omega
    have hlen : (u.take m ++ dots).length = m + 3 := by
      rw [List.length_append, htake]
      rfl
    rw [if_pos (by rw [hlen]; omega), List.take_left' htake]
  · rw [if_neg h, if_neg h]

lemma toNat_ofNatAux (n : ℕ) (h : n.isValidChar) :
    (Char.ofNatAux n h).toNat = n := rfl

lemma pyLower_idem (c : Char) : pyLower (pyLower c) = pyLower c := by
  by_cases h : 65 ≤ c.toNat ∧ c.toNat ≤ 90
  · unfold pyLower
    rw [dif_pos h, dif_neg (by rw [toNat_ofNatAux]; omega)]
  · unfold pyLower
    rw [dif_neg h, dif_neg h]

lemma mem_truncate {c : Char} {m : ℕ} {u : List Char}
    (h : c ∈ truncateText m u) : c ∈ u ∨ c = '.' := by
  unfold truncateText at h
  split_ifs at h with h1
  · rcases List.mem_append.mp h with h2 | h2
    · exact Or.inl (List.take_subset m u h2)
    · right
      simpa [dots] using h2
  · exact Or.inl h

lemma map_pyLower_fix (l : List Char) (h : ∀ c ∈ l, pyLower c = c) :
    l.map pyLower = l := by
  have := List.map_congr_left (f := pyLower) (g := id) (l := l)
    (by intro a ha; simp [h a ha])
  simpa using this

/-- Claim C3 (amended): with the four removal/replacement switches all
disabled (so the pass is case-fold, whitespace collapse and truncation),
`preprocess` is idempotent for every `max_text_length` and every input.
With a replacement switch on it is not: the emoji pass inserts the
upper-case `[EMOJI]` placeholder, which the second pass's `lower()`
rewrites (see the counterexample). -/
theorem normalizer_idempotent_flags_off :
    ∀ (m : ℕ) (s : List Char),
      preprocess ⟨false, false, false, false, m⟩
        (preprocess ⟨false, false, false, false, m⟩ s) =
      preprocess ⟨false, false, false, false, m⟩ s := by
  intro m s
  by_cases hs : s = []
  · subst hs
    rfl
  · have hps : preprocess ⟨false, false, false, false, m⟩ s =
        truncateText m (normWs (s.map pyLower)) := by
      unfold preprocess applySubs
      rw [if_neg hs]
      simp
    rw [hps]
    have hcanu := normWs_canon (s.map pyLower)
    by_cases ht : truncateText m (normWs (s.map pyLower)) = []
    · rw [ht]
      rfl
    · have hcant := truncate_canon hcanu.1 hcanu.2 m
      have hlow : (truncateText m (normWs (s.map pyLower))).map pyLower =
          truncateText m (normWs (s.map pyLower)) := by
        apply map_pyLower_fix
        intro c hc
        rcases mem_truncate hc with hcu | rfl
        · rcases mem_unwords _ c hcu with rfl | ⟨w, hw, hcw⟩
          · decide
          · have hmem : c ∈ s.map pyLower :=
              mem_of_mem_words _ w hw c hcw
            obtain ⟨d, _, rfl⟩ := List.mem_map.mp hmem
            exact pyLower_idem d
        · decide
      have hnw : normWs (truncateText m (normWs (s.map pyLower))) =
          truncateText m (normWs (s.map pyLower)) :=
        unwords_words_eq
          (truncateText m (normWs (s.map pyLower))).length _
          le_rfl hcant.1 hcant.2
      unfold preprocess applySubs
      rw [if_neg ht]
      simp only [Bool.false_eq_true, if_false]
      rw [hlow, hnw]
      exact truncate_idem m _

/-- The configuration of the C3 counterexample: emoji handling on, the
other switches off, default max length 512. -/
def c3cfg : TextConfig := ⟨false, false, false, true, 512⟩

/-- Counterexample to claim C3 as stated: with `handle_emojis` enabled,
one emoji normalizes to `[EMOJI]`, whose second pass lowercases it to
`[emoji]` — the normalizer is not idempotent for every configuration. -/
theorem normalizer_not_idempotent :
    preprocess c3cfg (preprocess c3cfg ['😀']) ≠
      preprocess c3cfg ['😀'] := by decide
